import Mathlib

/-!
# Verification of `tarball.go` (yrdeng/tarball)

Shallow embedding of the package `tarball` (file `src/tarball.go`).

An archive byte stream (a gzipped tarball) is modelled by its decoded
view `GzStream`: the list of entries that decode cleanly, followed by an
optional terminal error (`none` models a clean `io.EOF`; `some e` models
a gzip/tar decode or read failure after those entries; a gzip header
failure from `gzip.NewReader` is the case of zero entries and an error).
A `tar.Writer` is modelled by the list of entries written to it plus a
closed flag (`tar.Writer.WriteHeader` fails after `Close`).

Host-filesystem plumbing (`os`, `path/filepath`) is not part of the
repository source; following the spec it is treated as an external
collaborator with capabilities stat / list-children / open-read /
create / remove, and is modelled explicitly below.
-/

namespace Tarball

/-- A payload byte, modelled as a natural number. -/
abbrev Byte := Nat

/-- The fields of `tar.Header` that `tarball.go` reads or writes:
`Name`, `Size`, `Mode`, `ModTime`. -/
structure Header where
  name : String
  size : Nat
  mode : Int
  modTime : Int
deriving Repr, DecidableEq

/-- One tar entry: its header and its payload bytes. -/
structure Entry where
  header : Header
  payload : List Byte
deriving Repr, DecidableEq

/-- Go `error` values produced or propagated by the package: decode
errors from gzip/tar, I/O errors from the host, the not-found error
built by `ReadFileFromGzippedTarball`, and the wrapped errors built
with `fmt.Errorf` in `CreateGzippedTarball`. -/
inductive Err where
  | decode (msg : String)
  | ioErr (msg : String)
  | notFound (msg : String)
  | wrap (msg : String) (inner : Err)
deriving Repr, DecidableEq

/-- The decoded view of one gzipped tarball byte stream: the entries
that decode cleanly, then either clean EOF (`none`) or an error. -/
structure GzStream where
  entries : List Entry
  err : Option Err
deriving Repr, DecidableEq

/-- State of a `tar.Writer`: entries written so far and whether `Close`
has been called. -/
structure TarWriter where
  entries : List Entry
  closed : Bool
deriving Repr, DecidableEq

/-- `tar.Writer.WriteHeader` followed by writing the payload: fails on a
closed writer, otherwise appends the entry. -/
def tarWriteEntry (w : TarWriter) (e : Entry) : Except Err TarWriter :=
  if w.closed then .error (.ioErr "archive/tar: write after close")
  else .ok { entries := w.entries ++ [e], closed := false }

/-- Go `strings.HasPrefix p s` test on character lists. -/
def listHasPre : List Char → List Char → Bool
  | [], _ => true
  | _ :: _, [] => false
  | a :: as, b :: bs => a == b && listHasPre as bs

/-- Go `strings.HasPrefix(s, p)` (argument order: pattern first). -/
def strHasPre (p s : String) : Bool :=
  listHasPre p.data s.data

/-- Go `strings.TrimPrefix(s, p)`: drop the leading occurrence of `p`
from `s` when present, otherwise return `s` unchanged. -/
def goTrimPre (s p : String) : String :=
  if strHasPre p s then ⟨s.data.drop p.data.length⟩ else s

/-! ## CombineTarballs -/

/-- `CombineTarballs` (`tarball.go` lines 16–56): stream every entry of
every source, in order, into one fresh gzipped tar writer.  The result
is the pair (returned byte slice, returned error): on the first source
that fails to decode or copy, Go returns `nil, err` — modelled as
`(none, some err)`; on success it returns the closed archive holding
the concatenation of all sources' entries. -/
def combineTarballs : List GzStream → Option (List Entry) × Option Err
  | [] => (some [], none)
  | r :: rest =>
    match r.err with
    | some e => (none, some e)
    | none =>
      match combineTarballs rest with
      | (none, e) => (none, e)
      | (some es, tail) => (some (r.entries ++ es), tail)

/-! ## ReadFileFromGzippedTarball -/

/-- The message of the error built at `tarball.go` line 156. -/
def notFoundMsg (path : String) : String :=
  "no file named " ++ path ++ " in tarball"

/-- The scan loop of `ReadFileFromGzippedTarball`: walk the decoded
entries; on the first name equal to `path` return its payload
(`ioutil.ReadAll`); when the entries run out, surface the stream's
terminal state — the decode error if there is one, otherwise the
not-found error replacing `io.EOF`. -/
def readLoop : List Entry → Option Err → String → Except Err (List Byte)
  | [], some e, _ => .error e
  | [], none, path => .error (.notFound (notFoundMsg path))
  | e :: rest, tail, path =>
    if e.header.name = path then .ok e.payload else readLoop rest tail path

/-- `ReadFileFromGzippedTarball` (`tarball.go` lines 143–164). -/
def readFileFromGzippedTarball (s : GzStream) (path : String) : Except Err (List Byte) :=
  readLoop s.entries s.err path

/-! ## GetFilePathsWithRegex -/

/-- Outcome of `GetFilePathsWithRegex`: either `regexp.MustCompile`
panicked on the pattern, or the function returned `(files, err)`. -/
inductive FinderOutcome where
  | panicked (pattern : String)
  | returned (files : List String) (err : Option Err)
deriving Repr, DecidableEq

/-- The scan loop of `GetFilePathsWithRegex` (`tarball.go` lines
127–140).  `compile` models the external `regexp` collaborator:
`none` for a malformed pattern (on which `MustCompile` panics), `some
m` for a compiled matcher.  As in the source, the pattern is compiled
inside the loop, after each header read; at end of stream the collected
names are returned with the terminal error (`nil` on clean EOF). -/
def finderLoop (compile : String → Option (String → Bool)) (regex : String)
    (tail : Option Err) : List String → List Entry → FinderOutcome
  | acc, [] => .returned acc tail
  | acc, e :: rest =>
    match compile regex with
    | none => .panicked regex
    | some m =>
      finderLoop compile regex tail
        (if m e.header.name then acc ++ [e.header.name] else acc) rest

/-- `GetFilePathsWithRegex` (`tarball.go` lines 114–141), on the decoded
view of the tar file it opens. -/
def getFilePathsWithRegex (compile : String → Option (String → Bool))
    (s : GzStream) (regex : String) : FinderOutcome :=
  finderLoop compile regex s.err [] s.entries

/-! ## WriteTarballToTarWriter -/

/-- The header rewrite at `tarball.go` lines 183–185: when the prefix is
non-empty, `header.Name = strings.TrimPrefix(header.Name, prefix)`. -/
def transcodeEntry (pfx : String) (e : Entry) : Entry :=
  if pfx ≠ "" then
    { e with header := { e.header with name := goTrimPre e.header.name pfx } }
  else e

/-- The copy loop of `WriteTarballToTarWriter`: write each (possibly
renamed) header and payload into the caller's writer; stop with the
write error if a write fails, otherwise finish with the stream's
terminal state. -/
def writeLoop (tail : Option Err) (pfx : String) :
    TarWriter → List Entry → TarWriter × Option Err
  | w, [] => (w, tail)
  | w, e :: rest =>
    match tarWriteEntry w (transcodeEntry pfx e) with
    | .error err => (w, some err)
    | .ok w2 => writeLoop tail pfx w2 rest

/-- `WriteTarballToTarWriter` (`tarball.go` lines 166–195): returns the
caller's writer as left by the call, and the returned error. -/
def writeTarballToTarWriter (s : GzStream) (w : TarWriter) (pfx : String) :
    TarWriter × Option Err :=
  writeLoop s.err pfx w s.entries

/-! ## Filesystem collaborator and CreateGzippedTarball -/

/-- Metadata and content of one regular file, as `os.Open` + `Stat`
expose them to `addFileToTarWriter`. -/
structure FileData where
  content : List Byte
  mode : Int
  modTime : Int
deriving Repr, DecidableEq

/-- Lookup in an association list keyed by path. -/
def alookup : List (String × α) → String → Option α
  | [], _ => none
  | kv :: rest, q => if kv.1 = q then some kv.2 else alookup rest q

/-- Remove every binding of a path from an association list. -/
def removePath : List (String × FileData) → String → List (String × FileData)
  | [], _ => []
  | kv :: rest, p =>
    if kv.1 = p then removePath rest p else kv :: removePath rest p

/-- Modelled from the spec: the filesystem collaborator (spec §6) —
regular files with their data, directories with their direct children
(the result of `filepath.Glob(dir + "/*")`), and the set of paths on
which deletion fails (e.g. for permission reasons).  The real
implementations live in Go's `os` package, outside this repository. -/
structure FS where
  files : List (String × FileData)
  dirs : List (String × List String)
  unremovable : List String
deriving Repr, DecidableEq

/-- Modelled from the spec: capability `stat` — tells a regular file
from a directory, failing on a missing path. -/
def FS.stat (fs : FS) (p : String) : Except Err Bool :=
  match alookup fs.files p with
  | some _ => .ok false
  | none =>
    match alookup fs.dirs p with
    | some _ => .ok true
    | none => .error (.ioErr ("stat " ++ p ++ ": no such file or directory"))

/-- Modelled from the spec: capability `list-children` — the direct
children of a directory (`filepath.Glob(path + "/*")`). -/
def FS.listChildren (fs : FS) (p : String) : Except Err (List String) :=
  match alookup fs.dirs p with
  | some cs => .ok cs
  | none => .error (.ioErr ("open " ++ p ++ ": no such file or directory"))

/-- Modelled from the spec: capability `open-for-read` with `stat`
(`os.Open` then `file.Stat` in `addFileToTarWriter`). -/
def FS.openRead (fs : FS) (p : String) : Except Err FileData :=
  match alookup fs.files p with
  | some fdata => .ok fdata
  | none => .error (.ioErr ("open " ++ p ++ ": no such file or directory"))

/-- Modelled from the spec: capability `remove` (`os.Remove`) — fails on
a missing path or on a path whose deletion the host refuses. -/
def FS.removeFile (fs : FS) (p : String) : Except Err FS :=
  if p ∈ fs.unremovable then
    .error (.ioErr ("remove " ++ p ++ ": permission denied"))
  else
    match alookup fs.files p with
    | some _ => .ok { fs with files := removePath fs.files p }
    | none => .error (.ioErr ("remove " ++ p ++ ": no such file or directory"))

/-- The call `os.Remove(filePath)` at `tarball.go` line 107 with its
result discarded: on failure the filesystem is left unchanged. -/
def FS.removeBestEffort (fs : FS) (p : String) : FS :=
  match fs.removeFile p with
  | .ok fs2 => fs2
  | .error _ => fs

/-- Modelled from the spec: `filepath.Dir` of the external path
collaborator — everything before the last slash, `"."` when the path
has no slash. -/
def pathDir (p : String) : String :=
  match (p.data.reverse.dropWhile (fun c => !(c == '/'))) with
  | [] => "."
  | _ :: restRev => ⟨restRev.reverse⟩

/-- Modelled from the spec: `filepath.Rel base target` of the external
path collaborator — the target relative to the base, failing when the
target does not lie under the base. -/
def pathRel (base target : String) : Except Err String :=
  if base = "." then .ok target
  else if strHasPre (base ++ "/") target then
    .ok (goTrimPre target (base ++ "/"))
  else if base = target then .ok "."
  else .error (.ioErr ("Rel: cannot make " ++ target ++ " relative to " ++ base))

/-- The entry `addFileToTarWriter` writes for a file with data `fdata`
and relative name `rname` (`tar.Header{Name, Size, Mode, ModTime}`
followed by the file content, `tarball.go` lines 214–226). -/
def builtEntry (fdata : FileData) (rname : String) : Entry :=
  { header :=
      { name := rname
        size := fdata.content.length
        mode := fdata.mode
        modTime := fdata.modTime }
    payload := fdata.content }

/-- `addFileToTarWriter` (`tarball.go` lines 197–227): open the source
file, read its metadata, and write a header carrying the path relative
to `dirPath` with the file's size, mode and modification time, followed
by the file's content. -/
def addFileToTarWriter (fs : FS) (filePath dirPath : String) (w : TarWriter) :
    Except Err TarWriter :=
  match fs.openRead filePath with
  | .error e => .error e
  | .ok fdata =>
    match pathRel dirPath filePath with
    | .error e => .error e
    | .ok relFilePath => tarWriteEntry w (builtEntry fdata relFilePath)

/-- The loop of `CreateGzippedTarball` (`tarball.go` lines 96–109):
skip the destination archive itself; add each remaining path, aborting
with a wrapped error on failure; after a successful add, delete the
source when `removeFiles` is set, ignoring deletion failures.  Returns
the filesystem as left by the loop, the writer state (the entries on
disk in the destination file, which the deferred closes flush even on
the error path), and the returned error. -/
def buildLoop (tfp dirOfPath : String) (removeFiles : Bool) :
    FS → TarWriter → List String → FS × TarWriter × Option Err
  | fs, w, [] => (fs, w, none)
  | fs, w, p :: rest =>
    if p = tfp then buildLoop tfp dirOfPath removeFiles fs w rest
    else
      match addFileToTarWriter fs p dirOfPath w with
      | .error e =>
        (fs, w, some (.wrap ("failed to add " ++ p ++ " to tar writer") e))
      | .ok w2 =>
        buildLoop tfp dirOfPath removeFiles
          (if removeFiles then fs.removeBestEffort p else fs) w2 rest

/-- `CreateGzippedTarball` (`tarball.go` lines 61–111): stat the path;
archive the path itself when it is a regular file, otherwise its direct
children; run the add/remove loop over a fresh writer.  Result: the
filesystem after the call, the entries of the destination archive file,
and the returned error. -/
def createGzippedTarball (fs : FS) (tarFilePath path : String)
    (removeFiles : Bool) : FS × List Entry × Option Err :=
  match fs.stat path with
  | .error e => (fs, [], some (.wrap ("failed to get file info of " ++ path) e))
  | .ok isDir =>
    match (if !isDir then Except.ok [path] else fs.listChildren path) with
    | .error e =>
      (fs, [], some (.wrap ("failed to get all files under " ++ path) e))
    | .ok filePaths =>
      let res := buildLoop tarFilePath (pathDir path) removeFiles fs
        { entries := [], closed := false } filePaths
      (res.1, res.2.1.entries, res.2.2)

/-- Equality of `Except` results is decidable when both components
support decidable equality (needed to evaluate concrete runs). -/
def exceptDecEq {ε α : Type} [DecidableEq ε] [DecidableEq α] :
    DecidableEq (Except ε α)
  | .ok a, .ok b =>
    if h : a = b then isTrue (h ▸ rfl)
    else isFalse (fun hh => h (Except.ok.inj hh))
  | .error a, .error b =>
    if h : a = b then isTrue (h ▸ rfl)
    else isFalse (fun hh => h (Except.error.inj hh))
  | .ok _, .error _ => isFalse (fun hh => Except.noConfusion hh)
  | .error _, .ok _ => isFalse (fun hh => Except.noConfusion hh)

instance {ε α : Type} [DecidableEq ε] [DecidableEq α] :
    DecidableEq (Except ε α) := exceptDecEq

/-! ## Derived values used in statements -/

/-- The names an already-compiled matcher `m` selects from a list of
entries, in stream order — the value `GetFilePathsWithRegex` collects. -/
def matchNames (m : String → Bool) (es : List Entry) : List String :=
  es.filterMap (fun x => if m x.header.name then some x.header.name else none)

/-! ## Helper lemmas -/

theorem listHasPre_iff (p : List Char) : ∀ s : List Char,
    listHasPre p s = true ↔ ∃ t, s = p ++ t := by
  induction p with
  | nil =>
    intro s
    simp [listHasPre]
  | cons a as ih =>
    intro s
    cases s with
    | nil =>
      simp [listHasPre]
    | cons b bs =>
      simp only [listHasPre, Bool.and_eq_true, beq_iff_eq, ih bs]
      constructor
      · rintro ⟨rfl, t, rfl⟩
        exact ⟨t, rfl⟩
      · rintro ⟨t, h⟩
        rw [List.cons_append] at h
        cases h
        exact ⟨rfl, t, rfl⟩

theorem pre_append_goTrimPre (p s : String) (h : strHasPre p s = true) :
    p ++ goTrimPre s p = s := by
  obtain ⟨t, ht⟩ := (listHasPre_iff p.data s.data).mp h
  cases p with
  | mk pd =>
    cases s with
    | mk sd =>
      simp only [String.data] at ht
      subst ht
      simp only [goTrimPre, h, if_pos]
      show String.mk (pd ++ (pd ++ t).drop pd.length) = String.mk (pd ++ t)
      rw [List.drop_left]

theorem goTrimPre_of_no_pre (p s : String) (h : strHasPre p s = false) :
    goTrimPre s p = s := by
  simp [goTrimPre, h]

theorem readLoop_nomatch (path : String) :
    ∀ es : List Entry, (∀ e ∈ es, e.header.name ≠ path) →
      ∀ t, readLoop es t path = readLoop [] t path := by
  intro es
  induction es with
  | nil => intro _ _; rfl
  | cons e rest ih =>
    intro h t
    have hne : e.header.name ≠ path := h e (by simp)
    simp only [readLoop, if_neg hne]
    exact ih (fun x hx => h x (by simp [hx])) t

theorem readLoop_append_left (path : String) :
    ∀ a : List Entry, (∃ e ∈ a, e.header.name = path) →
      ∀ (b : List Entry) (t t2 : Option Err),
        readLoop (a ++ b) t path = readLoop a t2 path := by
  intro a
  induction a with
  | nil => rintro ⟨e, he, _⟩; simp at he
  | cons x rest ih =>
    rintro ⟨e, he, hname⟩ b t t2
    by_cases hx : x.header.name = path
    · simp [readLoop, hx]
    · have hmem : e ∈ rest := by
        rcases List.mem_cons.mp he with h1 | h1
        · exact absurd (h1 ▸ hname) hx
        · exact h1
      simp only [List.cons_append, readLoop, if_neg hx]
      exact ih ⟨e, hmem, hname⟩ b t t2

theorem readLoop_append_right (path : String) :
    ∀ a : List Entry, (∀ e ∈ a, e.header.name ≠ path) →
      ∀ (b : List Entry) (t : Option Err),
        readLoop (a ++ b) t path = readLoop b t path := by
  intro a
  induction a with
  | nil => intro _ b t; rfl
  | cons x rest ih =>
    intro h b t
    have hx : x.header.name ≠ path := h x (by simp)
    simp only [List.cons_append, readLoop, if_neg hx]
    exact ih (fun e he => h e (by simp [he])) b t

theorem tarWriteEntry_ok {w w2 : TarWriter} {e : Entry}
    (h : tarWriteEntry w e = .ok w2) :
    w.closed = false ∧ w2 = { entries := w.entries ++ [e], closed := false } := by
  by_cases hc : w.closed
  · simp [tarWriteEntry, hc] at h
  · simp only [tarWriteEntry, hc, if_neg, Bool.false_eq_true, not_false_iff,
      if_false, Except.ok.injEq] at h
    exact ⟨by simp [hc], h.symm⟩

theorem writeLoop_open (t : Option Err) (pfx : String) :
    ∀ (es : List Entry) (w : TarWriter), w.closed = false →
      writeLoop t pfx w es =
        ({ entries := w.entries ++ es.map (transcodeEntry pfx), closed := false }, t) := by
  intro es
  induction es with
  | nil =>
    intro w hw
    cases w
    simp_all [writeLoop]
  | cons e rest ih =>
    intro w hw
    simp only [writeLoop, tarWriteEntry, hw, Bool.false_eq_true, if_false]
    rw [ih { entries := w.entries ++ [transcodeEntry pfx e], closed := false } rfl]
    simp

theorem writeLoop_closed_eq (t : Option Err) (pfx : String) :
    ∀ (es : List Entry) (w : TarWriter),
      (writeLoop t pfx w es).1.closed = w.closed := by
  intro es
  induction es with
  | nil => intro w; rfl
  | cons e rest ih =>
    intro w
    by_cases hw : w.closed
    · simp [writeLoop, tarWriteEntry, hw]
    · simp only [Bool.not_eq_true] at hw
      simp only [writeLoop, tarWriteEntry, hw, Bool.false_eq_true, if_false]
      rw [ih { entries := w.entries ++ [transcodeEntry pfx e], closed := false }]

theorem finderLoop_compiled (compile : String → Option (String → Bool))
    (regex : String) (m : String → Bool) (hc : compile regex = some m)
    (t : Option Err) :
    ∀ (es : List Entry) (acc : List String),
      finderLoop compile regex t acc es = .returned (acc ++ matchNames m es) t := by
  intro es
  induction es with
  | nil => intro acc; simp [finderLoop, matchNames]
  | cons e rest ih =>
    intro acc
    simp only [finderLoop, hc]
    by_cases hm : m e.header.name
    · rw [if_pos hm, ih]
      simp [matchNames, hm]
    · rw [if_neg hm, ih]
      simp [matchNames, hm]

theorem alookup_removePath_self (p : String) :
    ∀ l : List (String × FileData), alookup (removePath l p) p = none := by
  intro l
  induction l with
  | nil => rfl
  | cons kv rest ih =>
    simp only [removePath]
    by_cases hk : kv.1 = p
    · rw [if_pos hk]
      exact ih
    · rw [if_neg hk]
      simp only [alookup, if_neg hk]
      exact ih

theorem alookup_removePath_ne (p q : String) (hqp : q ≠ p) :
    ∀ l : List (String × FileData), alookup (removePath l p) q = alookup l q := by
  intro l
  induction l with
  | nil => rfl
  | cons kv rest ih =>
    simp only [removePath]
    by_cases hk : kv.1 = p
    · have hne : kv.1 ≠ q := by
        rw [hk]
        exact fun h => hqp h.symm
      rw [if_pos hk, ih]
      simp [alookup, hne]
    · rw [if_neg hk]
      simp only [alookup, ih]

theorem removeBestEffort_dirs (fs : FS) (p : String) :
    (fs.removeBestEffort p).dirs = fs.dirs := by
  unfold FS.removeBestEffort FS.removeFile
  by_cases hu : p ∈ fs.unremovable
  · simp [hu]
  · simp only [hu, if_false]
    cases h : alookup fs.files p <;> simp

theorem removeBestEffort_unremovable (fs : FS) (p : String) :
    (fs.removeBestEffort p).unremovable = fs.unremovable := by
  unfold FS.removeBestEffort FS.removeFile
  by_cases hu : p ∈ fs.unremovable
  · simp [hu]
  · simp only [hu, if_false]
    cases h : alookup fs.files p <;> simp

theorem alookup_removeBestEffort_ne (fs : FS) (p q : String) (hqp : q ≠ p) :
    alookup (fs.removeBestEffort p).files q = alookup fs.files q := by
  unfold FS.removeBestEffort FS.removeFile
  by_cases hu : p ∈ fs.unremovable
  · simp [hu]
  · simp only [hu, if_false]
    cases h : alookup fs.files p with
    | none => simp
    | some fdata => simp [alookup_removePath_ne p q hqp]

theorem alookup_removeBestEffort_unremov (fs : FS) (p q : String)
    (hq : q ∈ fs.unremovable) :
    alookup (fs.removeBestEffort p).files q = alookup fs.files q := by
  by_cases hpq : q = p
  · subst hpq
    unfold FS.removeBestEffort FS.removeFile
    simp [hq]
  · exact alookup_removeBestEffort_ne fs p q hpq

theorem openRead_eq_ok (fs : FS) (p : String) (fdata : FileData) :
    fs.openRead p = .ok fdata ↔ alookup fs.files p = some fdata := by
  unfold FS.openRead
  cases h : alookup fs.files p <;> simp

theorem addFile_ok {fs : FS} {p d : String} {w w2 : TarWriter}
    (h : addFileToTarWriter fs p d w = .ok w2) :
    ∃ fdata rn, alookup fs.files p = some fdata ∧ pathRel d p = .ok rn ∧
      w.closed = false ∧
      w2 = { entries := w.entries ++ [builtEntry fdata rn], closed := false } := by
  unfold addFileToTarWriter at h
  cases hor : fs.openRead p with
  | error e => rw [hor] at h; exact absurd h (by simp)
  | ok fdata =>
    rw [hor] at h
    cases hrel : pathRel d p with
    | error e => rw [hrel] at h; exact absurd h (by simp)
    | ok rn =>
      rw [hrel] at h
      obtain ⟨hw, hw2⟩ := tarWriteEntry_ok h
      exact ⟨fdata, rn, (openRead_eq_ok fs p fdata).mp hor, rfl, hw, hw2⟩

theorem buildLoop_entries_mono (tfp d : String) (rm : Bool) :
    ∀ (cs : List String) (fs : FS) (w : TarWriter),
      ∃ extra, (buildLoop tfp d rm fs w cs).2.1.entries = w.entries ++ extra := by
  intro cs
  induction cs with
  | nil => intro fs w; exact ⟨[], by simp [buildLoop]⟩
  | cons c rest ih =>
    intro fs w
    by_cases hct : c = tfp
    · simpa [buildLoop, hct] using ih fs w
    · simp only [buildLoop, if_neg hct]
      cases hadd : addFileToTarWriter fs c d w with
      | error e => exact ⟨[], by simp⟩
      | ok w2 =>
        obtain ⟨fdata, rn, _, _, _, hw2⟩ := addFile_ok hadd
        obtain ⟨extra, hex⟩ :=
          ih (if rm then fs.removeBestEffort c else fs) w2
        refine ⟨builtEntry fdata rn :: extra, ?_⟩
        dsimp only
        rw [hex, hw2]
        simp

theorem buildLoop_clean (tfp d : String) (rm : Bool)
    (fd : String → FileData) (r : String → String) :
    ∀ (cs : List String) (fs : FS) (w : TarWriter), w.closed = false →
      cs.Nodup →
      (∀ c ∈ cs, c ≠ tfp ∧ alookup fs.files c = some (fd c) ∧
        pathRel d c = .ok (r c)) →
      ∃ fs2 : FS,
        buildLoop tfp d rm fs w cs =
          (fs2,
           { entries := w.entries ++ cs.map (fun c => builtEntry (fd c) (r c))
             closed := false },
           none)
        ∧ fs2.unremovable = fs.unremovable
        ∧ ∀ q, q ∈ fs.unremovable → alookup fs2.files q = alookup fs.files q := by
  intro cs
  induction cs with
  | nil =>
    intro fs w hw _ _
    refine ⟨fs, ?_, rfl, fun q _ => rfl⟩
    cases w with
    | mk wes wc =>
      simp only at hw
      subst hw
      simp [buildLoop]
  | cons c rest ih =>
    intro fs w hw hnd hcs
    obtain ⟨hct, hlc, hrc⟩ := hcs c (by simp)
    obtain ⟨hcnr, hndr⟩ := List.nodup_cons.mp hnd
    have hadd : addFileToTarWriter fs c d w =
        .ok { entries := w.entries ++ [builtEntry (fd c) (r c)], closed := false } := by
      simp [addFileToTarWriter, FS.openRead, hlc, hrc, tarWriteEntry, hw]
    simp only [buildLoop, if_neg hct, hadd]
    set fs1 := if rm then fs.removeBestEffort c else fs with hfs1
    have hun1 : fs1.unremovable = fs.unremovable := by
      rw [hfs1]
      by_cases hr : rm
      · simp [hr, removeBestEffort_unremovable]
      · simp [hr]
    have hlook1 : ∀ c2 ∈ rest, alookup fs1.files c2 = alookup fs.files c2 := by
      intro c2 hc2
      have hne : c2 ≠ c := fun h => hcnr (h ▸ hc2)
      rw [hfs1]
      by_cases hr : rm
      · simp [hr, alookup_removeBestEffort_ne fs c c2 hne]
      · simp [hr]
    have hcs1 : ∀ c2 ∈ rest, c2 ≠ tfp ∧ alookup fs1.files c2 = some (fd c2) ∧
        pathRel d c2 = .ok (r c2) := by
      intro c2 hc2
      obtain ⟨h1, h2, h3⟩ := hcs c2 (by simp [hc2])
      exact ⟨h1, by rw [hlook1 c2 hc2]; exact h2, h3⟩
    obtain ⟨fs2, heq, hun2, hlook2⟩ :=
      ih fs1 { entries := w.entries ++ [builtEntry (fd c) (r c)], closed := false }
        rfl hndr hcs1
    refine ⟨fs2, ?_, by rw [hun2, hun1], ?_⟩
    · rw [heq]
      simp
    · intro q hq
      have hq1 : q ∈ fs1.unremovable := by rw [hun1]; exact hq
      rw [hlook2 q hq1, hfs1]
      by_cases hr : rm
      · simp [hr, alookup_removeBestEffort_unremov fs c q hq]
      · simp [hr]

theorem buildLoop_removed_added (tfp d : String) (rm : Bool)
    (p : String) (fdp : FileData) :
    ∀ (cs : List String) (fs : FS) (w : TarWriter),
      alookup fs.files p = some fdp →
      alookup (buildLoop tfp d rm fs w cs).1.files p = none →
      ∃ e ∈ (buildLoop tfp d rm fs w cs).2.1.entries, e.payload = fdp.content := by
  intro cs
  induction cs with
  | nil =>
    intro fs w hlp hnone
    simp only [buildLoop] at hnone
    rw [hlp] at hnone
    exact absurd hnone (by simp)
  | cons c rest ih =>
    intro fs w hlp hnone
    by_cases hct : c = tfp
    · simp only [buildLoop, if_pos hct] at hnone ⊢
      exact ih fs w hlp hnone
    · simp only [buildLoop, if_neg hct] at hnone ⊢
      cases hadd : addFileToTarWriter fs c d w with
      | error e =>
        rw [hadd] at hnone
        dsimp only at hnone
        rw [hlp] at hnone
        exact absurd hnone (by simp)
      | ok w2 =>
        rw [hadd] at hnone
        dsimp only at hnone ⊢
        by_cases hcp : c = p
        · subst hcp
          obtain ⟨fdata, rn, hlk, _, _, hw2⟩ := addFile_ok hadd
          have hfd : fdata = fdp := by
            rw [hlp] at hlk
            exact (Option.some.injEq _ _ ▸ hlk).symm
          cases hfd
          obtain ⟨extra, hex⟩ := buildLoop_entries_mono tfp d rm rest
            (if rm then fs.removeBestEffort c else fs) w2
          refine ⟨builtEntry fdp rn, ?_, rfl⟩
          rw [hex, hw2]
          simp
        · have hlp1 : alookup (if rm then fs.removeBestEffort c else fs).files p
              = some fdp := by
            by_cases hr : rm
            · simpa [hr] using
                (alookup_removeBestEffort_ne fs c p (fun h => hcp h.symm)).trans hlp
            · simpa [hr] using hlp
          exact ih (if rm then fs.removeBestEffort c else fs) w2 hlp1 hnone

theorem readLoop_map_builtEntry (fd : String → FileData) (r : String → String) :
    ∀ cs : List String, cs.Nodup →
      (∀ c ∈ cs, ∀ c2 ∈ cs, r c = r c2 → c = c2) →
      ∀ c ∈ cs,
        readLoop (cs.map (fun x => builtEntry (fd x) (r x))) none (r c)
          = .ok (fd c).content := by
  intro cs
  induction cs with
  | nil => intro _ _ c hc; simp at hc
  | cons c0 rest ih =>
    intro hnd hinj c hc
    obtain ⟨hc0nr, hndr⟩ := List.nodup_cons.mp hnd
    rcases List.mem_cons.mp hc with hce | hcr
    · subst hce
      simp [readLoop, builtEntry]
    · have hne : r c0 ≠ r c := by
        intro h
        have : c0 = c := hinj c0 (by simp) c (by simp [hcr]) h
        exact hc0nr (this ▸ hcr)
      simp only [List.map_cons, readLoop, builtEntry, if_neg hne]
      exact ih hndr
        (fun x hx y hy h => hinj x (by simp [hx]) y (by simp [hy]) h) c hcr

/-! ## Claims -/

/-- C2 counterexample: the name `"x"` is present in both archives with
different payloads; extracting `"x"` from the combined archive yields the
first archive's copy `[1]`, while extracting it directly from the second
archive — where the name is also present — yields `[2]`.  So extracting a
name present in B from the combined archive does not always yield the
bytes extracted directly from B. -/
theorem c2_cex :
    combineTarballs
        [⟨[⟨⟨"x", 1, 0, 0⟩, [1]⟩], none⟩, ⟨[⟨⟨"x", 1, 0, 0⟩, [2]⟩], none⟩]
      = (some [⟨⟨"x", 1, 0, 0⟩, [1]⟩, ⟨⟨"x", 1, 0, 0⟩, [2]⟩], none)
    ∧ "x" ∈ ([⟨⟨"x", 1, 0, 0⟩, [2]⟩] : List Entry).map (fun e => e.header.name)
    ∧ readFileFromGzippedTarball
        ⟨[⟨⟨"x", 1, 0, 0⟩, [1]⟩, ⟨⟨"x", 1, 0, 0⟩, [2]⟩], none⟩ "x" = .ok [1]
    ∧ readFileFromGzippedTarball ⟨[⟨⟨"x", 1, 0, 0⟩, [2]⟩], none⟩ "x" = .ok [2]
    ∧ readFileFromGzippedTarball
          ⟨[⟨⟨"x", 1, 0, 0⟩, [1]⟩, ⟨⟨"x", 1, 0, 0⟩, [2]⟩], none⟩ "x"
        ≠ readFileFromGzippedTarball ⟨[⟨⟨"x", 1, 0, 0⟩, [2]⟩], none⟩ "x" := by
  refine ⟨rfl, by decide, rfl, rfl, ?_⟩
  intro h
  exact absurd (Except.ok.inj h) (by decide)

/-- C2 (amended): for valid archives A and B, `CombineTarballs [A, B]`
succeeds with the concatenation of their entries, whose count is the sum
of the two counts; extracting a name present in A yields the same bytes
as extracting it from A, and extracting a name absent from A (in
particular any name present only in B) yields the same bytes as
extracting it from B.  (On a name present in both, the combined archive
yields A's copy, the first in stream order.) -/
theorem c2_combine_preserves_reads (A B : GzStream)
    (hA : A.err = none) (hB : B.err = none) :
    combineTarballs [A, B] = (some (A.entries ++ B.entries), none)
    ∧ (A.entries ++ B.entries).length = A.entries.length + B.entries.length
    ∧ (∀ n, n ∈ A.entries.map (fun e => e.header.name) →
        readFileFromGzippedTarball ⟨A.entries ++ B.entries, none⟩ n
          = readFileFromGzippedTarball A n)
    ∧ (∀ n, n ∉ A.entries.map (fun e => e.header.name) →
        readFileFromGzippedTarball ⟨A.entries ++ B.entries, none⟩ n
          = readFileFromGzippedTarball B n) := by
  refine ⟨?_, by simp, ?_, ?_⟩
  · simp [combineTarballs, hA, hB]
  · intro n hn
    obtain ⟨e, he, hname⟩ := List.mem_map.mp hn
    unfold readFileFromGzippedTarball
    rw [hA]
    exact readLoop_append_left n A.entries ⟨e, he, hname⟩ B.entries none none
  · intro n hn
    have hno : ∀ e ∈ A.entries, e.header.name ≠ n := by
      intro e he h
      exact hn (List.mem_map.mpr ⟨e, he, h⟩)
    unfold readFileFromGzippedTarball
    rw [hB]
    exact readLoop_append_right n A.entries hno B.entries none

/-- C2 witness: a concrete instance of the amended combine property. -/
theorem c2_witness :
    combineTarballs
        [⟨[⟨⟨"a", 1, 0, 0⟩, [1]⟩], none⟩, ⟨[⟨⟨"b", 1, 0, 0⟩, [2]⟩], none⟩]
      = (some ([⟨⟨"a", 1, 0, 0⟩, [1]⟩] ++ [⟨⟨"b", 1, 0, 0⟩, [2]⟩]), none)
    ∧ readFileFromGzippedTarball
        ⟨[⟨⟨"a", 1, 0, 0⟩, [1]⟩] ++ [⟨⟨"b", 1, 0, 0⟩, [2]⟩], none⟩ "b"
      = readFileFromGzippedTarball ⟨[⟨⟨"b", 1, 0, 0⟩, [2]⟩], none⟩ "b" := by
  have h := c2_combine_preserves_reads
    ⟨[⟨⟨"a", 1, 0, 0⟩, [1]⟩], none⟩ ⟨[⟨⟨"b", 1, 0, 0⟩, [2]⟩], none⟩ rfl rfl
  exact ⟨h.1, h.2.2.2 "b" (by decide)⟩

/-- C3 counterexample: `GetFilePathsWithRegex` on an archive with zero
entries and a malformed pattern (the external compiler rejects it, as
Go's `regexp` rejects `"("`) returns successfully with an empty list and
no error — no pattern failure occurs at all, let alone before stream
reading begins. -/
theorem c3_cex :
    getFilePathsWithRegex (fun _ => none) ⟨[], none⟩ "("
      = .returned [] none := rfl

/-- C3 (amended): the pattern is compiled inside the scan loop
(`regexp.MustCompile` at `tarball.go` line 136), so on a malformed
pattern the finder panics only when it processes the first entry — after
stream reading has begun — and when the stream yields no entries the
pattern is never compiled and the scan returns without any pattern
failure. -/
theorem c3_pattern_panic_mid_stream (compile : String → Option (String → Bool))
    (regex : String) (s : GzStream) (hc : compile regex = none) :
    (s.entries = [] → getFilePathsWithRegex compile s regex = .returned [] s.err)
    ∧ (s.entries ≠ [] → getFilePathsWithRegex compile s regex = .panicked regex) := by
  constructor
  · intro h
    unfold getFilePathsWithRegex
    rw [h]
    rfl
  · intro h
    unfold getFilePathsWithRegex
    cases hes : s.entries with
    | nil => exact absurd hes h
    | cons e rest => simp [finderLoop, hc]

/-- C3 witness: on a one-entry archive a malformed pattern panics. -/
theorem c3_witness :
    getFilePathsWithRegex (fun _ => none) ⟨[⟨⟨"a", 1, 0, 0⟩, []⟩], none⟩ "("
      = .panicked "(" :=
  (c3_pattern_panic_mid_stream (fun _ => none) "("
    ⟨[⟨⟨"a", 1, 0, 0⟩, []⟩], none⟩ rfl).2 (by decide)

/-- C4: when the sources before position i decode cleanly and source i
fails, `CombineTarballs` returns exactly source i's error together with a
nil byte slice — no partial combined output. -/
theorem c4_combine_error_aborts (pre : List GzStream) (r : GzStream)
    (post : List GzStream) (e : Err)
    (hpre : ∀ a ∈ pre, a.err = none) (hr : r.err = some e) :
    combineTarballs (pre ++ r :: post) = (none, some e) := by
  induction pre with
  | nil => simp [combineTarballs, hr]
  | cons a rest ih =>
    have ha : a.err = none := hpre a (by simp)
    have hrest : ∀ x ∈ rest, x.err = none := fun x hx => hpre x (by simp [hx])
    simp [combineTarballs, ha, ih hrest]

/-- C4 witness: a clean source followed by a failing one. -/
theorem c4_witness :
    combineTarballs [⟨[⟨⟨"a", 1, 0, 0⟩, [1]⟩], none⟩,
        ⟨[], some (.decode "gzip: invalid header")⟩]
      = (none, some (.decode "gzip: invalid header")) :=
  c4_combine_error_aborts [⟨[⟨⟨"a", 1, 0, 0⟩, [1]⟩], none⟩]
    ⟨[], some (.decode "gzip: invalid header")⟩ [] (.decode "gzip: invalid header")
    (by decide) rfl

/-- C5: `ReadFileFromGzippedTarball` returns the payload of the first
entry named exactly `path`; when no entry matches and the stream ends
cleanly — in particular on a zero-entry archive — it fails with the
not-found error whose message contains the requested path; when the
stream fails before a match, that decode error is returned instead. -/
theorem c5_extractor_contract (s : GzStream) (path : String) :
    (∀ pre e post, s.entries = pre ++ e :: post →
      (∀ x ∈ pre, x.header.name ≠ path) → e.header.name = path →
      readFileFromGzippedTarball s path = .ok e.payload)
    ∧ ((∀ x ∈ s.entries, x.header.name ≠ path) → s.err = none →
      readFileFromGzippedTarball s path = .error (.notFound (notFoundMsg path))
      ∧ ∃ a b, notFoundMsg path = a ++ path ++ b)
    ∧ (∀ er, (∀ x ∈ s.entries, x.header.name ≠ path) → s.err = some er →
      readFileFromGzippedTarball s path = .error er) := by
  refine ⟨?_, ?_, ?_⟩
  · intro pre e post hsplit hpre hname
    unfold readFileFromGzippedTarball
    rw [hsplit, readLoop_append_right path pre hpre (e :: post) s.err]
    simp [readLoop, hname]
  · intro hno hnone
    unfold readFileFromGzippedTarball
    rw [readLoop_nomatch path s.entries hno s.err, hnone]
    exact ⟨rfl, "no file named ", " in tarball", rfl⟩
  · intro er hno hsome
    unfold readFileFromGzippedTarball
    rw [readLoop_nomatch path s.entries hno s.err, hsome]
    rfl

/-- C5 witness: a first-match read, a clean miss, and an erroring
stream. -/
theorem c5_witness :
    readFileFromGzippedTarball ⟨[⟨⟨"k", 1, 0, 0⟩, [9]⟩], none⟩ "k" = .ok [9]
    ∧ readFileFromGzippedTarball ⟨[], none⟩ "missing"
        = .error (.notFound (notFoundMsg "missing"))
    ∧ readFileFromGzippedTarball ⟨[], some (.decode "bad")⟩ "missing"
        = .error (.decode "bad") := by
  refine ⟨?_, ?_, ?_⟩
  · exact (c5_extractor_contract ⟨[⟨⟨"k", 1, 0, 0⟩, [9]⟩], none⟩ "k").1
      [] ⟨⟨"k", 1, 0, 0⟩, [9]⟩ [] rfl (by simp) rfl
  · exact ((c5_extractor_contract ⟨[], none⟩ "missing").2.1 (by simp) rfl).1
  · exact (c5_extractor_contract ⟨[], some (.decode "bad")⟩ "missing").2.2
      (.decode "bad") (by simp) rfl

/-- C6: with a non-empty prefix, the transcoder writes each entry with
exactly the leading prefix stripped from its name when the name starts
with the prefix (`pfx ++ newName = oldName`), with the name unchanged
otherwise, and with the payload unchanged in either case. -/
theorem c6_strips_only_when_present (pfx : String) (hp : pfx ≠ "")
    (s : GzStream) (hs : s.err = none) (w : TarWriter) (hw : w.closed = false) :
    (writeTarballToTarWriter s w pfx).1.entries
      = w.entries ++ s.entries.map (transcodeEntry pfx)
    ∧ ∀ e : Entry,
        (strHasPre pfx e.header.name = true →
          pfx ++ (transcodeEntry pfx e).header.name = e.header.name)
        ∧ (strHasPre pfx e.header.name = false →
          (transcodeEntry pfx e).header.name = e.header.name)
        ∧ (transcodeEntry pfx e).payload = e.payload := by
  refine ⟨?_, fun e => ⟨?_, ?_, ?_⟩⟩
  · unfold writeTarballToTarWriter
    rw [hs, writeLoop_open none pfx s.entries w hw]
  · intro h
    simp only [transcodeEntry, if_pos hp]
    exact pre_append_goTrimPre pfx e.header.name h
  · intro h
    simp only [transcodeEntry, if_pos hp]
    exact goTrimPre_of_no_pre pfx e.header.name h
  · simp [transcodeEntry, hp]

/-- C6 witness: `"build/out.bin"` with prefix `"build/"` becomes
`"out.bin"`; `"other.bin"` is unchanged; payloads are copied. -/
theorem c6_witness :
    (writeTarballToTarWriter
        ⟨[⟨⟨"build/out.bin", 1, 0, 0⟩, [3]⟩, ⟨⟨"other.bin", 1, 0, 0⟩, [4]⟩], none⟩
        ⟨[], false⟩ "build/").1.entries
      = [⟨⟨"out.bin", 1, 0, 0⟩, [3]⟩, ⟨⟨"other.bin", 1, 0, 0⟩, [4]⟩]
    ∧ "build/" ++ "out.bin" = "build/out.bin" := by
  have h := c6_strips_only_when_present "build/" (by decide)
    ⟨[⟨⟨"build/out.bin", 1, 0, 0⟩, [3]⟩, ⟨⟨"other.bin", 1, 0, 0⟩, [4]⟩], none⟩
    rfl ⟨[], false⟩ rfl
  refine ⟨?_, by decide⟩
  rw [h.1]
  decide

/-- C7: with the empty prefix the transcoder appends the input's entries
to the destination writer verbatim and in order, and on every input —
clean or failing — it leaves the caller's writer exactly as open or
closed as it found it (it never calls `Close`). -/
theorem c7_empty_pfx_copy_and_writer_left_open :
    (∀ (s : GzStream) (w : TarWriter), s.err = none → w.closed = false →
      writeTarballToTarWriter s w ""
        = ({ entries := w.entries ++ s.entries, closed := false }, none))
    ∧ ∀ (s : GzStream) (w : TarWriter) (pfx : String),
        (writeTarballToTarWriter s w pfx).1.closed = w.closed := by
  constructor
  · intro s w hs hw
    unfold writeTarballToTarWriter
    rw [hs, writeLoop_open none "" s.entries w hw]
    have hfun : transcodeEntry "" = id := by
      funext e
      simp [transcodeEntry]
    rw [hfun, List.map_id]
  · intro s w pfx
    exact writeLoop_closed_eq s.err pfx s.entries w

/-- C7 witness: a pure copy on a concrete archive, and an open-state
check on a failing stream with a closed writer. -/
theorem c7_witness :
    writeTarballToTarWriter ⟨[⟨⟨"a", 1, 0, 0⟩, [5]⟩], none⟩ ⟨[], false⟩ ""
      = ({ entries := [⟨⟨"a", 1, 0, 0⟩, [5]⟩], closed := false }, none)
    ∧ (writeTarballToTarWriter ⟨[], some (.decode "bad")⟩ ⟨[], true⟩ "p").1.closed
      = true := by
  constructor
  · have h := c7_empty_pfx_copy_and_writer_left_open.1
      ⟨[⟨⟨"a", 1, 0, 0⟩, [5]⟩], none⟩ ⟨[], false⟩ rfl rfl
    simpa using h
  · exact c7_empty_pfx_copy_and_writer_left_open.2
      ⟨[], some (.decode "bad")⟩ ⟨[], true⟩ "p"

/-- C8: when the pattern compiles and the stream fails to decode after
some entries, `GetFilePathsWithRegex` returns the matching names
collected before the failure, in stream order, together with that
error. -/
theorem c8_finder_partial_on_error (compile : String → Option (String → Bool))
    (m : String → Bool) (regex : String) (s : GzStream) (e : Err)
    (hc : compile regex = some m) (he : s.err = some e) :
    getFilePathsWithRegex compile s regex
      = .returned (matchNames m s.entries) (some e) := by
  unfold getFilePathsWithRegex
  rw [he, finderLoop_compiled compile regex m hc (some e) s.entries []]
  simp

/-- C8 witness: one matching and one non-matching entry before a decode
failure. -/
theorem c8_witness :
    getFilePathsWithRegex (fun _ => some (fun n => n == "x"))
        ⟨[⟨⟨"x", 1, 0, 0⟩, []⟩, ⟨⟨"y", 1, 0, 0⟩, []⟩],
         some (.decode "unexpected EOF")⟩ "x"
      = .returned ["x"] (some (.decode "unexpected EOF")) := by
  have h := c8_finder_partial_on_error (fun _ => some (fun n => n == "x"))
    (fun n => n == "x") "x"
    ⟨[⟨⟨"x", 1, 0, 0⟩, []⟩, ⟨⟨"y", 1, 0, 0⟩, []⟩], some (.decode "unexpected EOF")⟩
    (.decode "unexpected EOF") rfl rfl
  exact h.trans (by decide)

/-- C1: building an archive from a directory of regular files (direct
children of `path`, each readable, each with a well-defined relative
name, the names pairwise distinct) succeeds, and extracting each
produced entry by its name with `ReadFileFromGzippedTarball` returns
exactly that file's original content. -/
theorem c1_build_then_read_round_trip
    (fs : FS) (tfp path : String) (cs : List String)
    (fd : String → FileData) (r : String → String) (rm : Bool)
    (hnf : alookup fs.files path = none)
    (hd : alookup fs.dirs path = some cs)
    (hnd : cs.Nodup)
    (hcs : ∀ c ∈ cs, c ≠ tfp ∧ alookup fs.files c = some (fd c) ∧
      pathRel (pathDir path) c = .ok (r c))
    (hinj : ∀ c ∈ cs, ∀ c2 ∈ cs, r c = r c2 → c = c2) :
    (createGzippedTarball fs tfp path rm).2.2 = none
    ∧ ∀ c ∈ cs,
        readFileFromGzippedTarball
          ⟨(createGzippedTarball fs tfp path rm).2.1, none⟩ (r c)
          = .ok (fd c).content := by
  have hstat : fs.stat path = .ok true := by
    unfold FS.stat
    rw [hnf, hd]
  obtain ⟨fs2, heq, _, _⟩ :=
    buildLoop_clean tfp (pathDir path) rm fd r cs fs
      { entries := [], closed := false } rfl hnd hcs
  have hres : createGzippedTarball fs tfp path rm
      = (fs2, cs.map (fun c => builtEntry (fd c) (r c)), none) := by
    simp [createGzippedTarball, FS.listChildren, hstat, hd, heq]
  refine ⟨by rw [hres], fun c hc => ?_⟩
  rw [hres]
  exact readLoop_map_builtEntry fd r cs hnd hinj c hc

/-- C1 witness: a directory with two files round-trips. -/
theorem c1_witness :
    (createGzippedTarball
        ⟨[("a/d/x", ⟨[7], 420, 5⟩), ("a/d/y", ⟨[8], 420, 6⟩)],
         [("a/d", ["a/d/x", "a/d/y"])], []⟩ "out.tgz" "a/d" true).2.2 = none
    ∧ readFileFromGzippedTarball
        ⟨(createGzippedTarball
            ⟨[("a/d/x", ⟨[7], 420, 5⟩), ("a/d/y", ⟨[8], 420, 6⟩)],
             [("a/d", ["a/d/x", "a/d/y"])], []⟩ "out.tgz" "a/d" true).2.1, none⟩
        "d/x" = .ok [7] := by
  have h := c1_build_then_read_round_trip
    ⟨[("a/d/x", ⟨[7], 420, 5⟩), ("a/d/y", ⟨[8], 420, 6⟩)],
     [("a/d", ["a/d/x", "a/d/y"])], []⟩ "out.tgz" "a/d" ["a/d/x", "a/d/y"]
    (fun c => if c = "a/d/x" then ⟨[7], 420, 5⟩ else ⟨[8], 420, 6⟩)
    (fun c => if c = "a/d/x" then "d/x" else "d/y") true
    (by decide) (by decide) (by decide) (by decide) (by decide)
  refine ⟨h.1, ?_⟩
  have h2 := h.2 "a/d/x" (by decide)
  simpa using h2

/-- C9: with `removeFiles` set, (1) any source file the build removed
from disk had first been successfully added: its content is among the
entries written to the destination archive, even when the build later
fails; (2) a deletion failure is tolerated — on a directory whose
children all add cleanly but one of which the host refuses to delete,
the build still returns success, the archive contains that file's entry,
and the file is still on disk. -/
theorem c9_delete_only_after_add_and_tolerated :
    (∀ (fs : FS) (tfp path p : String) (fdp : FileData),
      alookup fs.files p = some fdp →
      alookup (createGzippedTarball fs tfp path true).1.files p = none →
      ∃ e ∈ (createGzippedTarball fs tfp path true).2.1,
        e.payload = fdp.content)
    ∧ ∀ (fs : FS) (tfp path : String) (cs : List String)
        (fd : String → FileData) (r : String → String) (u : String),
        alookup fs.files path = none →
        alookup fs.dirs path = some cs →
        cs.Nodup →
        (∀ c ∈ cs, c ≠ tfp ∧ alookup fs.files c = some (fd c) ∧
          pathRel (pathDir path) c = .ok (r c)) →
        u ∈ cs → u ∈ fs.unremovable →
        (createGzippedTarball fs tfp path true).2.2 = none
        ∧ builtEntry (fd u) (r u) ∈ (createGzippedTarball fs tfp path true).2.1
        ∧ alookup (createGzippedTarball fs tfp path true).1.files u
            = some (fd u) := by
  constructor
  · intro fs tfp path p fdp hlp hnone
    unfold createGzippedTarball at hnone ⊢
    revert hnone
    cases hstat : fs.stat path with
    | error e =>
      intro hnone
      dsimp only at hnone
      rw [hlp] at hnone
      exact absurd hnone (by simp)
    | ok isDir =>
      intro hnone
      revert hnone
      dsimp only
      cases hsrc : (if !isDir then Except.ok [path] else fs.listChildren path) with
      | error e2 =>
        intro hnone
        dsimp only at hnone
        rw [hlp] at hnone
        exact absurd hnone (by simp)
      | ok filePaths =>
        intro hnone
        dsimp only at hnone ⊢
        exact buildLoop_removed_added tfp (pathDir path) true p fdp filePaths fs
          { entries := [], closed := false } hlp hnone
  · intro fs tfp path cs fd r u hnf hd hnd hcs hu hur
    have hstat : fs.stat path = .ok true := by
      unfold FS.stat
      rw [hnf, hd]
    obtain ⟨fs2, heq, hun, hlook⟩ :=
      buildLoop_clean tfp (pathDir path) true fd r cs fs
        { entries := [], closed := false } rfl hnd hcs
    have hres : createGzippedTarball fs tfp path true
        = (fs2, cs.map (fun c => builtEntry (fd c) (r c)), none) := by
      simp [createGzippedTarball, FS.listChildren, hstat, hd, heq]
    refine ⟨by rw [hres], ?_, ?_⟩
    · rw [hres]
      exact List.mem_map.mpr ⟨u, hu, rfl⟩
    · rw [hres]
      dsimp only
      rw [hlook u hur]
      exact (hcs u hu).2.1

/-- C9 witness: a single-file build that removes its source, and a
directory build with an undeletable child that still succeeds. -/
theorem c9_witness :
    (∃ e ∈ (createGzippedTarball ⟨[("a/f", ⟨[9], 420, 5⟩)], [], []⟩
        "t.tgz" "a/f" true).2.1, e.payload = [9])
    ∧ (createGzippedTarball ⟨[("a/d/x", ⟨[7], 420, 5⟩)],
        [("a/d", ["a/d/x"])], ["a/d/x"]⟩ "t.tgz" "a/d" true).2.2 = none
    ∧ builtEntry ⟨[7], 420, 5⟩ "d/x"
        ∈ (createGzippedTarball ⟨[("a/d/x", ⟨[7], 420, 5⟩)],
            [("a/d", ["a/d/x"])], ["a/d/x"]⟩ "t.tgz" "a/d" true).2.1
    ∧ alookup (createGzippedTarball ⟨[("a/d/x", ⟨[7], 420, 5⟩)],
        [("a/d", ["a/d/x"])], ["a/d/x"]⟩ "t.tgz" "a/d" true).1.files "a/d/x"
      = some ⟨[7], 420, 5⟩ := by
  refine ⟨?_, ?_⟩
  · exact c9_delete_only_after_add_and_tolerated.1
      ⟨[("a/f", ⟨[9], 420, 5⟩)], [], []⟩ "t.tgz" "a/f" "a/f" ⟨[9], 420, 5⟩
      (by decide) (by decide)
  · have h := c9_delete_only_after_add_and_tolerated.2
      ⟨[("a/d/x", ⟨[7], 420, 5⟩)], [("a/d", ["a/d/x"])], ["a/d/x"]⟩
      "t.tgz" "a/d" ["a/d/x"] (fun _ => ⟨[7], 420, 5⟩) (fun _ => "d/x") "a/d/x"
      (by decide) (by decide) (by decide) (by decide) (by decide) (by decide)
    exact h

/-- C10: `CreateGzippedTarball` on a path that is a regular file with
`removeFiles` set archives that single file and deletes the path itself:
the resulting filesystem no longer has a binding for it. -/
theorem c10_regular_file_itself_removed (fs : FS) (tfp path rname : String)
    (fdata : FileData)
    (hf : alookup fs.files path = some fdata)
    (hne : path ≠ tfp)
    (hrel : pathRel (pathDir path) path = .ok rname)
    (hrm : path ∉ fs.unremovable) :
    createGzippedTarball fs tfp path true
      = ({ fs with files := removePath fs.files path },
         [builtEntry fdata rname], none)
    ∧ alookup (createGzippedTarball fs tfp path true).1.files path = none := by
  have hstat : fs.stat path = .ok false := by
    unfold FS.stat
    rw [hf]
  have hadd : addFileToTarWriter fs path (pathDir path)
        { entries := [], closed := false }
      = .ok { entries := [builtEntry fdata rname], closed := false } := by
    simp [addFileToTarWriter, FS.openRead, hf, hrel, tarWriteEntry]
  have hloop : buildLoop tfp (pathDir path) true fs
        { entries := [], closed := false } [path]
      = ({ fs with files := removePath fs.files path },
         { entries := [builtEntry fdata rname], closed := false }, none) := by
    simp only [buildLoop, if_neg hne, hadd]
    unfold FS.removeBestEffort FS.removeFile
    rw [if_neg hrm, hf]
    simp
  have hmain : createGzippedTarball fs tfp path true
      = ({ fs with files := removePath fs.files path },
         [builtEntry fdata rname], none) := by
    simp [createGzippedTarball, hstat, hloop]
  exact ⟨hmain, by rw [hmain]; exact alookup_removePath_self path fs.files⟩

/-- C10 witness: a concrete single-file build deletes the source file
itself. -/
theorem c10_witness :
    createGzippedTarball ⟨[("a/f", ⟨[9], 420, 5⟩)], [], []⟩ "t.tgz" "a/f" true
      = (⟨[], [], []⟩, [builtEntry ⟨[9], 420, 5⟩ "f"], none)
    ∧ alookup (createGzippedTarball ⟨[("a/f", ⟨[9], 420, 5⟩)], [], []⟩
        "t.tgz" "a/f" true).1.files "a/f" = none := by
  have h := c10_regular_file_itself_removed
    ⟨[("a/f", ⟨[9], 420, 5⟩)], [], []⟩ "t.tgz" "a/f" "f" ⟨[9], 420, 5⟩
    (by decide) (by decide) (by decide) (by decide)
  exact ⟨h.1.trans (by decide), h.2⟩

end Tarball
